import Mathlib

/-!
# ResearchTracker: a verification development

Shallow embedding of `src/components/ResearchTracker.jsx`.

* JavaScript strings are modelled by `String`; the truthiness test of a string
  (`if (s)`, `!s`, `a && b`) is "the string is not empty".
* The React state of the component is an explicit record `State`; every event
  handler is a function on that record.  What a handler reads from the outside
  world (the clock, the key pressed, the persisted slot) is an argument.
* Built-ins of the language that are not part of the repository
  (`toLowerCase`, `toUpperCase`, `JSON.parse`) are arguments of the
  definitions that call them.
* `Papa.unparse` comes from a package that is not part of the sources; its model and
  the CSV reader it is checked against are in the section on the CSV export.
-/

namespace ResearchTracker

/-! ## Data model -/

/-- The draft object `newEntry` (lines 10-19): the entry shape without `id`. -/
structure Draft where
  title : String
  url : String
  date : String
  description : String
  evidenceLevel : String
  category : String
  notes : String
  tags : List String
deriving DecidableEq

/-- An element of `researchEntries`: the draft's keys followed by `id`
(`entryWithDate`, lines 76-80). -/
structure Entry where
  title : String
  url : String
  date : String
  description : String
  evidenceLevel : String
  category : String
  notes : String
  tags : List String
  id : String
deriving DecidableEq

/-- The four `useState` cells of the component (lines 7-19). -/
structure State where
  researchEntries : List Entry
  searchTerm : String
  filterCategory : String
  newEntry : Draft
deriving DecidableEq

/-- The initial value of `newEntry`, also the value `addEntry` resets it to
(lines 10-19 and 82-91). -/
def emptyDraft : Draft :=
  { title := "", url := "", date := "", description := "", evidenceLevel := "",
    category := "", notes := "", tags := [] }

/-- The state of the first render: `useState([])`, `useState('')`, `useState('')`
and the empty draft. -/
def initialState : State :=
  { researchEntries := [], searchTerm := "", filterCategory := "", newEntry := emptyDraft }

/-- JavaScript truthiness of a string: every string but the empty one. -/
def truthy (s : String) : Bool := s != ""

/-! ## Built-ins used by the component -/

/-- The search loop of `String.prototype.includes` on code lists: try the
search value at position 0, then at every later position. -/
def includesList : List Char → List Char → Bool
  | [], t => t.isPrefixOf []
  | c :: s, t => t.isPrefixOf (c :: s) || includesList s t

/-- The call `s.includes(t)`. -/
def includes (s t : String) : Bool := includesList s.data t.data

/-- The call `n.toString()` of a non-negative integer number: its decimal digits. -/
def numberToString (n : Nat) : String := (Nat.toDigits 10 n).asString

/-- The call `xs.join(sep)` on an array of strings. -/
def join (sep : String) : List String → String
  | [] => ""
  | [x] => x
  | x :: y :: rest => x ++ sep ++ join sep (y :: rest)

/-- The expression `iso.split('T')[0]`: the text before the first `T`
(the whole text when it has none). -/
def splitT0 (iso : String) : String := (iso.data.takeWhile (fun c => c != 'T')).asString

/-- The callback form `xs.filter((_, index) => index !== indexToRemove)`, with
`start` the index of the first element of `xs`. -/
def filterIndexNe {α : Type} (indexToRemove : Nat) : Nat → List α → List α
  | _, [] => []
  | start, x :: xs =>
    if start != indexToRemove then x :: filterIndexNe indexToRemove (start + 1) xs
    else filterIndexNe indexToRemove (start + 1) xs

/-! ## Draft composition (lines 49-72) -/

/-- The names of the form controls wired to `handleInputChange`. -/
inductive FieldName
  | title | url | category | evidenceLevel | description | notes
deriving DecidableEq

/-- The handler `handleInputChange` (lines 49-55): overwrite the named key of the draft. -/
def handleInputChange (name : FieldName) (value : String) (st : State) : State :=
  { st with newEntry :=
      match name with
      | .title => { st.newEntry with title := value }
      | .url => { st.newEntry with url := value }
      | .category => { st.newEntry with category := value }
      | .evidenceLevel => { st.newEntry with evidenceLevel := value }
      | .description => { st.newEntry with description := value }
      | .notes => { st.newEntry with notes := value } }

/-- The updater `prev => ({ ...prev, tags: [...prev.tags, e.target.value] })` of
`handleTagInput` (lines 59-62); `boxValue` is what `e.target.value` holds when the
updater runs. -/
def tagUpdater (boxValue : String) (prev : Draft) : Draft :=
  { prev with tags := prev.tags ++ [boxValue] }

/-- The handler `handleTagInput` (lines 57-65); `key` is `e.key` and `value` is
`e.target.value` at the call.  Line 63 empties the input box after `setNewEntry` was
handed the updater, and the updater reads the box when React runs it: at the call,
before line 63 (`updaterRunsAtCall = true`, the box still holds `value`), or at the next
render, after line 63 (`updaterRunsAtCall = false`, the box holds the empty text). -/
def handleTagInput (key value : String) (updaterRunsAtCall : Bool) (st : State) : State :=
  if key == "Enter" && truthy value then
    let boxAfterLine63 := ""
    let boxValue := if updaterRunsAtCall then value else boxAfterLine63
    { st with newEntry := tagUpdater boxValue st.newEntry }
  else st

/-- The handler `removeTag` (lines 67-72). -/
def removeTag (indexToRemove : Nat) (st : State) : State :=
  { st with newEntry :=
      { st.newEntry with tags := filterIndexNe indexToRemove 0 st.newEntry.tags } }

/-! ## The store (lines 74-97) -/

/-- The object `entryWithDate` (lines 76-80); `now` is the value of `Date.now()` and
`iso` the value of `new Date().toISOString()`. -/
def entryWithDate (now : Nat) (iso : String) (d : Draft) : Entry :=
  { title := d.title, url := d.url, date := splitT0 iso, description := d.description,
    evidenceLevel := d.evidenceLevel, category := d.category, notes := d.notes,
    tags := d.tags, id := numberToString now }

/-- The handler `addEntry` (lines 74-93). -/
def addEntry (now : Nat) (iso : String) (st : State) : State :=
  if truthy st.newEntry.title && truthy st.newEntry.url then
    { st with
      researchEntries := st.researchEntries ++ [entryWithDate now iso st.newEntry]
      newEntry := emptyDraft }
  else st

/-- The handler `deleteEntry` (lines 95-97). -/
def deleteEntry (id : String) (st : State) : State :=
  { st with researchEntries := st.researchEntries.filter (fun entry => entry.id != id) }

/-! ## The filtered view (lines 130-137) -/

/-- The local `matchesSearch` of the filter callback (lines 132-134). -/
def matchesSearch (toLowerCase : String → String) (searchTerm : String) (entry : Entry) : Bool :=
  includes (toLowerCase entry.title) (toLowerCase searchTerm) ||
  includes (toLowerCase entry.description) (toLowerCase searchTerm) ||
  entry.tags.any (fun tag => includes (toLowerCase tag) (toLowerCase searchTerm))

/-- The local `matchesCategory` of the filter callback (line 135). -/
def matchesCategory (filterCategory : String) (entry : Entry) : Bool :=
  !(truthy filterCategory) || entry.category == filterCategory

/-- The derived value `filteredEntries` (lines 130-137). -/
def filteredEntries (toLowerCase : String → String) (st : State) : List Entry :=
  st.researchEntries.filter (fun entry =>
    matchesSearch toLowerCase st.searchTerm entry && matchesCategory st.filterCategory entry)

/-- A case folding that agrees with `toLowerCase` on ASCII text; used for concrete
examples only. -/
def asciiLower (s : String) : String := (s.data.map Char.toLower).asString

/-- A case folding that agrees with `toUpperCase` on ASCII text; used for concrete
examples only. -/
def asciiUpper (s : String) : String := (s.data.map Char.toUpper).asString

/-- Specification-level substring: `t` occurs inside `s`. -/
def IsSubstringOf (t s : String) : Prop := ∃ pre post : String, s = pre ++ t ++ post

/-- The two example states of the search scenario: one entry titled
"Biomechanics of Gait", searched with the term "GAIT". -/
def gaitEntry : Entry :=
  { title := "Biomechanics of Gait", url := "http://example.com", date := "2024-01-01",
    description := "", evidenceLevel := "", category := "Anatomie", notes := "", tags := [],
    id := "1" }

/-- The state holding `gaitEntry` with the search term "GAIT" and no category filter. -/
def gaitState : State :=
  { researchEntries := [gaitEntry], searchTerm := "GAIT", filterCategory := "",
    newEntry := emptyDraft }

/-! ## Histories of the store -/

/-- One store-changing user action: submitting the form while the draft is `draft`
(the clock reads `now` and `iso` at that call), or clicking the delete button of `id`. -/
inductive Action
  | add (draft : Draft) (now : Nat) (iso : String)
  | delete (id : String)
deriving DecidableEq

/-- Run one action: `addEntry` on the state whose draft is the submitted one, or
`deleteEntry`. -/
def step (st : State) : Action → State
  | .add draft now iso => addEntry now iso { st with newEntry := draft }
  | .delete id => deleteEntry id st

/-- The state reached from `st` by a sequence of actions. -/
def runFrom (st : State) (acts : List Action) : State := acts.foldl step st

/-- The state reached from the first render (empty store) by a sequence of actions. -/
def run (acts : List Action) : State := runFrom initialState acts

/-- The clock values read by the `addEntry` calls of a history that pass the
title/url test, in call order. -/
def acceptedClocks : List Action → List Nat
  | [] => []
  | .add draft now _ :: rest =>
    if truthy draft.title && truthy draft.url then now :: acceptedClocks rest
    else acceptedClocks rest
  | .delete _ :: rest => acceptedClocks rest

/-- The ids of a store, in store order. -/
def ids (st : State) : List String := st.researchEntries.map (fun entry => entry.id)

/-- Read a decimal numeral back (used to show that `numberToString` is injective). -/
def digitsValue (l : List Char) : Nat := l.foldl (fun acc c => acc * 10 + (c.toNat - 48)) 0

/-- A draft that passes the title/url test. -/
def sampleDraft : Draft :=
  { title := "Gait Study", url := "http://example.com", date := "", description := "",
    evidenceLevel := "", category := "Anatomie", notes := "", tags := ["t1", "t2"] }

/-- A state whose store has one entry and whose draft is `sampleDraft`. -/
def sampleState : State :=
  { researchEntries := [gaitEntry], searchTerm := "", filterCategory := "",
    newEntry := sampleDraft }

/-! ## Exporters and loading -/

/-- The file offered to the browser by an exporter: `link.download`, the blob's `type`
and the blob's text. -/
structure Download where
  filename : String
  mimeType : String
  content : String
deriving DecidableEq

/-- The loop `researchEntries.forEach((entry, index) => ...)` of `exportToDocx`
(lines 110-119): `index` is the index of the first entry of the list still to visit and
`docContent` the text built so far. -/
def docLoop (toUpperCase : String → String) : Nat → List Entry → String → String
  | _, [], docContent => docContent
  | index, entry :: rest, docContent =>
    let docContent := docContent ++
      (numberToString (index + 1) ++ ". " ++ toUpperCase entry.title ++ "\n")
    let docContent := docContent ++ ("URL: " ++ entry.url ++ "\n")
    let docContent := docContent ++ ("Date: " ++ entry.date ++ "\n")
    let docContent := docContent ++ ("Catégorie: " ++ entry.category ++ "\n")
    let docContent := docContent ++ ("Niveau de preuve: " ++ entry.evidenceLevel ++ "\n")
    let docContent := docContent ++ ("Description: " ++ entry.description ++ "\n")
    let docContent := docContent ++ ("Notes: " ++ entry.notes ++ "\n")
    let docContent := docContent ++ ("Tags: " ++ join ", " entry.tags ++ "\n\n")
    docLoop toUpperCase (index + 1) rest docContent

/-- The handler `exportToDocx` (lines 108-128): the state after the call and the
file it offers. -/
def exportToDocx (toUpperCase : String → String) (st : State) : State × Download :=
  (st,
   { filename := "recherches_biomedicales.docx"
     mimeType := "application/vnd.openxmlformats-officedocument.wordprocessingml.document"
     content := docLoop toUpperCase 0 st.researchEntries "JOURNAL DE RECHERCHE BIOMÉDICALE\n\n" })

/-- The report block of the `k`-th entry as the specification words it: eight lines and
a blank line. -/
def docxBlock (toUpperCase : String → String) (k : Nat) (entry : Entry) : String :=
  numberToString k ++ ". " ++ toUpperCase entry.title ++ "\n" ++
  "URL: " ++ entry.url ++ "\n" ++
  "Date: " ++ entry.date ++ "\n" ++
  "Catégorie: " ++ entry.category ++ "\n" ++
  "Niveau de preuve: " ++ entry.evidenceLevel ++ "\n" ++
  "Description: " ++ entry.description ++ "\n" ++
  "Notes: " ++ entry.notes ++ "\n" ++
  "Tags: " ++ join ", " entry.tags ++ "\n" ++
  "\n"

/-- The blocks of a list of entries whose first entry has number `k`, in list order. -/
def docxBlocks (toUpperCase : String → String) : Nat → List Entry → String
  | _, [] => ""
  | k, entry :: rest => docxBlock toUpperCase k entry ++ docxBlocks toUpperCase (k + 1) rest

/-- The report as the specification words it: the heading, a blank line, and the blocks
of the entries numbered from 1. -/
def docxReport (toUpperCase : String → String) (entries : List Entry) : String :=
  "JOURNAL DE RECHERCHE BIOMÉDICALE" ++ "\n" ++ "\n" ++ docxBlocks toUpperCase 1 entries

/-- A value that `JSON.parse` can return, as far as the component tells values apart:
an array of entries, or any other JSON value (kept as its text). -/
inductive Parsed
  | collection (entries : List Entry)
  | other (json : String)
deriving DecidableEq

/-- The first effect (lines 38-43).  `jsonParse` is `JSON.parse` (`Except.error` is the
exception it throws), `slot` is what `localStorage.getItem('researchEntries')` returns
(`none` for `null`) and `current` the value of the state cell before the effect.  The
result is the value of the state cell after the effect, or the exception that left it. -/
def loadEffect (jsonParse : String → Except String Parsed) (slot : Option String)
    (current : Parsed) : Except String Parsed :=
  match slot with
  | none => .ok current
  | some savedEntries =>
    if truthy savedEntries then
      match jsonParse savedEntries with
      | .ok value => .ok value
      | .error exception => .error exception
    else .ok current

/-- A `JSON.parse` behaviour on two texts: the text `[]` parses to the empty array and
the text `not json` (like any text that is not JSON) throws a `SyntaxError`. -/
def sampleJsonParse (text : String) : Except String Parsed :=
  if text = "[]" then .ok (.collection []) else .error "SyntaxError"

/-! ## CSV export (lines 99-106) -/

/-- Modelled from the spec: the header row of the CSV text, `Object.keys` of the first
entry, that is the keys of `entryWithDate` in creation order. -/
def csvHeader : List String :=
  ["title", "url", "date", "description", "evidenceLevel", "category", "notes", "tags", "id"]

/-- Modelled from the spec: the cell values of an entry, column by column; the array
`tags` is written through its `toString()`, the tags joined by a comma. -/
def csvRecord (entry : Entry) : List String :=
  [entry.title, entry.url, entry.date, entry.description, entry.evidenceLevel,
   entry.category, entry.notes, join "," entry.tags, entry.id]

/-- Modelled from the spec: the quote escaping of standard CSV, every quote character
is written twice. -/
def escapeQuotes : List Char → List Char
  | [] => []
  | c :: cs => if c = '"' then '"' :: '"' :: escapeQuotes cs else c :: escapeQuotes cs

/-- Modelled from the spec: whether a cell is written between quotes: it holds a
carriage return, a line feed, a quote, a byte-order mark or a comma, or it starts or
ends with a blank. -/
def needsQuotes (escaped : List Char) : Bool :=
  escaped.any (fun c => c == '\r' || c == '\n' || c == '"' || c == Char.ofNat 0xFEFF) ||
  escaped.any (fun c => c == ',') ||
  escaped.head? == some ' ' || escaped.getLast? == some ' '

/-- Modelled from the spec: the text of one cell. -/
def safe (str : String) : List Char :=
  let escaped := escapeQuotes str.data
  if needsQuotes escaped then '"' :: (escaped ++ ['"']) else escaped

/-- Modelled from the spec: the text of one row, its cells separated by commas. -/
def serializeRow : List String → List Char
  | [] => []
  | [cell] => safe cell
  | cell :: next :: rest => safe cell ++ ',' :: serializeRow (next :: rest)

/-- Modelled from the spec: the text of a table, its rows separated by `\r\n`, none
after the last row. -/
def serializeRows : List (List String) → List Char
  | [] => []
  | [row] => serializeRow row
  | row :: next :: rest => serializeRow row ++ '\r' :: '\n' :: serializeRows (next :: rest)

/-- Modelled from the spec: `Papa.unparse` belongs to the papaparse package, which is
imported by the component (line 4) and absent from the sources.  The specification asks
for standard comma-separated text, a header row with the field names, one row per entry,
and the tag sequence flattened to one delimited cell; the quoting rule, the `\r\n` row
separator, the comma inside the tags cell and the empty text for an empty array are the
defaults of that package. -/
def unparse (entries : List Entry) : String :=
  match entries with
  | [] => ""
  | _ :: _ => (serializeRows (csvHeader :: entries.map csvRecord)).asString

/-- The handler `exportToCSV` (lines 99-106): the state after the call and the file it
offers. -/
def exportToCSV (st : State) : State × Download :=
  (st,
   { filename := "recherches_biomedicales.csv"
     mimeType := "text/csv;charset=utf-8;"
     content := unparse st.researchEntries })

/-- Where a CSV reader stands: at the start of a record, just after a carriage return
that ended a record, at the start of a cell after a comma, inside an unquoted cell,
inside a quoted cell, or just after a quote met inside a quoted cell. -/
inductive Mode
  | recordStart | afterCR | fieldStart | unquoted | quoted | quoteSeen
deriving DecidableEq

/-- The state of a CSV reader: the finished records, the finished cells of the current
record, the characters of the current cell, and the mode. -/
structure Reader where
  rows : List (List String)
  row : List String
  field : List Char
  mode : Mode

/-- Close the current cell. -/
def endField (s : Reader) : Reader :=
  { s with row := s.row ++ [s.field.asString], field := [], mode := .fieldStart }

/-- Close the current cell and the current record. -/
def endRecord (s : Reader) (mode : Mode) : Reader :=
  { rows := s.rows ++ [s.row ++ [s.field.asString]], row := [], field := [], mode := mode }

/-- Add a character to the current cell. -/
def pushChar (s : Reader) (c : Char) (mode : Mode) : Reader :=
  { s with field := s.field ++ [c], mode := mode }

/-- Read a character outside quotes: a comma ends the cell, a carriage return or a line
feed ends the record, any other character belongs to the cell. -/
def readPlain (s : Reader) (c : Char) : Reader :=
  if c = ',' then endField s
  else if c = '\r' then endRecord s .afterCR
  else if c = '\n' then endRecord s .recordStart
  else pushChar s c .unquoted

/-- Read one character (RFC 4180: a cell may be enclosed in quotes, inside which a quote
is written twice and commas and line breaks are data; records end with `\r\n`, `\r` or
`\n`). -/
def readChar (s : Reader) (c : Char) : Reader :=
  match s.mode with
  | .recordStart => if c = '"' then { s with mode := .quoted } else readPlain s c
  | .fieldStart => if c = '"' then { s with mode := .quoted } else readPlain s c
  | .afterCR =>
    if c = '\n' then { s with mode := .recordStart }
    else if c = '"' then { s with mode := .quoted }
    else readPlain s c
  | .unquoted => readPlain s c
  | .quoted => if c = '"' then { s with mode := .quoteSeen } else pushChar s c .quoted
  | .quoteSeen => if c = '"' then pushChar s c .quoted else readPlain s c

/-- The records at the end of the text: a record in progress is closed, a text that
ends with a line break has no further record. -/
def finish (s : Reader) : List (List String) :=
  match s.mode with
  | .recordStart => s.rows
  | .afterCR => s.rows
  | _ => s.rows ++ [s.row ++ [s.field.asString]]

/-- Specification-level standard CSV reader: the records of a text, each a list of cell
values, the header row included. -/
def parseCsv (text : String) : List (List String) :=
  finish (text.data.foldl readChar { rows := [], row := [], field := [], mode := .recordStart })

/-- The split of a text at every comma (`text.split(',')`); `cur` holds the characters
of the piece being read. -/
def splitCommaAux : List Char → List Char → List String
  | cur, [] => [cur.asString]
  | cur, c :: cs =>
    if c = ',' then cur.asString :: splitCommaAux [] cs else splitCommaAux (cur ++ [c]) cs

/-- Specification-level decoder of the tags cell: no tag for the empty cell, else the
pieces between commas. -/
def recoverTags (cell : String) : List String :=
  if cell = "" then [] else splitCommaAux [] cell.data

/-- The entry of the CSV example: title "A", url "http://x", tags "t1" and "t2". -/
def csvEntry : Entry :=
  { title := "A", url := "http://x", date := "2024-01-01", description := "",
    evidenceLevel := "", category := "", notes := "", tags := ["t1", "t2"], id := "1" }

/-- A store holding `csvEntry` and an entry whose cells need quoting. -/
def csvState : State :=
  { researchEntries :=
      [csvEntry,
       { title := "Gait, \"posture\"", url := "http://y", date := "2024-01-02",
         description := "line one\nline two", evidenceLevel := "", category := "",
         notes := " padded ", tags := [], id := "2" }]
    searchTerm := "", filterCategory := "", newEntry := emptyDraft }

/-- An entry with the single tag `a,b`. -/
def commaTagEntry : Entry := { csvEntry with tags := ["a,b"] }

/-- An entry with the two tags `a` and `b`. -/
def twoTagEntry : Entry := { csvEntry with tags := ["a", "b"] }

/-- An entry whose only tag is the empty text. -/
def emptyTagEntry : Entry := { csvEntry with tags := [""] }

/-- An entry with no tag. -/
def noTagEntry : Entry := { csvEntry with tags := [] }

/-- The tags cell of a record: the cell under the column `tags`. -/
def tagsCell (record : List String) : String := record.getD 7 ""

/-! ## Theorems -/

theorem truthy_iff (s : String) : truthy s = true ↔ s ≠ "" := by
  simp [truthy]

theorem truthy_eq_false_iff (s : String) : truthy s = false ↔ s = "" := by
  simp [truthy]

theorem includesList_iff (s t : List Char) : includesList s t = true ↔ t <:+: s := by
  induction s with
  | nil =>
    simp only [includesList, List.isPrefixOf_iff_prefix]
    constructor
    · intro h; exact h.isInfix
    · intro h
      have := List.eq_nil_of_infix_nil h
      subst this; exact List.prefix_refl _
  | cons c s ih =>
    simp only [includesList, Bool.or_eq_true, List.isPrefixOf_iff_prefix, ih,
      List.infix_cons_iff]

theorem isSubstringOf_iff (t s : String) : IsSubstringOf t s ↔ t.data <:+: s.data := by
  constructor
  · rintro ⟨pre, post, h⟩
    exact ⟨pre.data, post.data, by rw [h]; simp [String.data_append]⟩
  · rintro ⟨a, b, h⟩
    refine ⟨a.asString, b.asString, String.ext ?_⟩
    simp [String.data_append, List.asString, h]

theorem includes_iff (s t : String) : includes s t = true ↔ IsSubstringOf t s := by
  rw [includes, includesList_iff, isSubstringOf_iff]

theorem includes_empty (s : String) : includes s "" = true := by
  rw [includes_iff]
  exact ⟨"", s, by simp⟩

theorem matchesSearch_iff (toLowerCase : String → String) (term : String) (entry : Entry) :
    matchesSearch toLowerCase term entry = true ↔
      (IsSubstringOf (toLowerCase term) (toLowerCase entry.title) ∨
       IsSubstringOf (toLowerCase term) (toLowerCase entry.description) ∨
       ∃ tag ∈ entry.tags, IsSubstringOf (toLowerCase term) (toLowerCase tag)) := by
  simp only [matchesSearch, Bool.or_eq_true, List.any_eq_true, includes_iff, or_assoc]

theorem matchesCategory_iff (filterCategory : String) (entry : Entry) :
    matchesCategory filterCategory entry = true ↔
      (filterCategory = "" ∨ entry.category = filterCategory) := by
  simp [matchesCategory, truthy]

/-- C1: for every case folding that maps the empty text to itself (as the built-in
`toLowerCase` does), an entry is in `filteredEntries` exactly when it is in the store,
the category filter is empty or equal to the entry's category, and the search term is
empty or its lower-cased form is a substring of the lower-cased title, description or
one of the tags; two terms with the same lower-cased form give the same filtered view. -/
theorem filteredEntries_iff (toLowerCase : String → String) (hEmpty : toLowerCase "" = "")
    (st : State) (entry : Entry) :
    (entry ∈ filteredEntries toLowerCase st ↔
      entry ∈ st.researchEntries ∧
      (st.filterCategory = "" ∨ entry.category = st.filterCategory) ∧
      (st.searchTerm = "" ∨
        IsSubstringOf (toLowerCase st.searchTerm) (toLowerCase entry.title) ∨
        IsSubstringOf (toLowerCase st.searchTerm) (toLowerCase entry.description) ∨
        ∃ tag ∈ entry.tags, IsSubstringOf (toLowerCase st.searchTerm) (toLowerCase tag))) ∧
    (∀ term : String, toLowerCase term = toLowerCase st.searchTerm →
      filteredEntries toLowerCase { st with searchTerm := term } =
        filteredEntries toLowerCase st) := by
  refine ⟨?_, ?_⟩
  · simp only [filteredEntries, List.mem_filter, Bool.and_eq_true, matchesSearch_iff,
      matchesCategory_iff]
    constructor
    · rintro ⟨hm, hs, hc⟩
      exact ⟨hm, hc, Or.inr hs⟩
    · rintro ⟨hm, hc, hs⟩
      refine ⟨hm, ?_, hc⟩
      rcases hs with h | h
      · left
        rw [h, hEmpty, ← includes_iff]
        exact includes_empty _
      · exact h
  · intro term h
    simp only [filteredEntries, matchesSearch, h]

/-- Witness of C1: the entry titled "Biomechanics of Gait" under the term "GAIT". -/
theorem filteredEntries_iff_witness :
    asciiLower "" = "" ∧ gaitEntry ∈ filteredEntries asciiLower gaitState :=
  ⟨by decide,
   ((filteredEntries_iff asciiLower (by decide) gaitState gaitEntry).1).2
     ⟨by decide, Or.inl (by decide),
      Or.inr (Or.inl ⟨"biomechanics of ", "", by decide⟩)⟩⟩

/-! ### Store operations -/

/-- C2: with a non-empty title and url in the draft, `addEntry` yields the old store
followed by exactly one new last entry that carries the draft's title, url,
description, evidenceLevel, category, notes and tags; the size grows by one. -/
theorem addEntry_valid (now : Nat) (iso : String) (st : State)
    (hTitle : st.newEntry.title ≠ "") (hUrl : st.newEntry.url ≠ "") :
    ∃ e : Entry,
      (addEntry now iso st).researchEntries = st.researchEntries ++ [e] ∧
      e.title = st.newEntry.title ∧ e.url = st.newEntry.url ∧
      e.description = st.newEntry.description ∧
      e.evidenceLevel = st.newEntry.evidenceLevel ∧
      e.category = st.newEntry.category ∧ e.notes = st.newEntry.notes ∧
      e.tags = st.newEntry.tags ∧
      (addEntry now iso st).researchEntries.length = st.researchEntries.length + 1 := by
  refine ⟨entryWithDate now iso st.newEntry, ?_⟩
  have h : (truthy st.newEntry.title && truthy st.newEntry.url) = true := by
    simp [truthy, hTitle, hUrl]
  simp [addEntry, h, entryWithDate]

/-- Witness of C2 on `sampleState`. -/
theorem addEntry_valid_witness :
    sampleState.newEntry.title ≠ "" ∧ sampleState.newEntry.url ≠ "" ∧
    ∃ e : Entry,
      (addEntry 1700000000000 "2023-11-14T22:13:20.000Z" sampleState).researchEntries =
        sampleState.researchEntries ++ [e] ∧
      e.title = sampleState.newEntry.title ∧ e.url = sampleState.newEntry.url ∧
      e.description = sampleState.newEntry.description ∧
      e.evidenceLevel = sampleState.newEntry.evidenceLevel ∧
      e.category = sampleState.newEntry.category ∧ e.notes = sampleState.newEntry.notes ∧
      e.tags = sampleState.newEntry.tags ∧
      (addEntry 1700000000000 "2023-11-14T22:13:20.000Z" sampleState).researchEntries.length =
        sampleState.researchEntries.length + 1 :=
  ⟨by decide, by decide,
   addEntry_valid 1700000000000 "2023-11-14T22:13:20.000Z" sampleState (by decide) (by decide)⟩

/-- C3: with an empty title or an empty url in the draft, `addEntry` returns the state
it was given: same entries, same size, and the call is total (no error case). -/
theorem addEntry_invalid (now : Nat) (iso : String) (st : State)
    (h : st.newEntry.title = "" ∨ st.newEntry.url = "") :
    addEntry now iso st = st ∧
    (addEntry now iso st).researchEntries = st.researchEntries ∧
    (addEntry now iso st).researchEntries.length = st.researchEntries.length := by
  have h' : (truthy st.newEntry.title && truthy st.newEntry.url) = false := by
    rcases h with h | h <;> simp [truthy, h]
  simp [addEntry, h']

/-- Witness of C3: the first render's empty draft. -/
theorem addEntry_invalid_witness :
    (initialState.newEntry.title = "" ∨ initialState.newEntry.url = "") ∧
    addEntry 5 "2024-01-01T00:00:00.000Z" initialState = initialState :=
  ⟨Or.inl (by decide),
   (addEntry_invalid 5 "2024-01-01T00:00:00.000Z" initialState (Or.inl (by decide))).1⟩

/-- C4: after `deleteEntry id` no entry of the store has that id, and when no entry had
it before the call the state is unchanged. -/
theorem deleteEntry_spec (id : String) (st : State) :
    (∀ e ∈ (deleteEntry id st).researchEntries, e.id ≠ id) ∧
    ((∀ e ∈ st.researchEntries, e.id ≠ id) → deleteEntry id st = st) := by
  constructor
  · intro e he
    simp only [deleteEntry, List.mem_filter, bne_iff_ne, ne_eq] at he
    exact he.2
  · intro h
    have : st.researchEntries.filter (fun entry => entry.id != id) = st.researchEntries := by
      rw [List.filter_eq_self]
      intro a ha
      simpa using h a ha
    simp [deleteEntry, this]

/-- Witness of C4: deleting an id that `sampleState` does not hold. -/
theorem deleteEntry_spec_witness :
    (∀ e ∈ sampleState.researchEntries, e.id ≠ "42") ∧
    deleteEntry "42" sampleState = sampleState :=
  ⟨by decide, (deleteEntry_spec "42" sampleState).2 (by decide)⟩

/-! ### Histories: non-empty required fields and id uniqueness -/

theorem runFrom_cons (st : State) (a : Action) (acts : List Action) :
    runFrom st (a :: acts) = runFrom (step st a) acts := rfl

theorem runFrom_append (st : State) (xs ys : List Action) :
    runFrom st (xs ++ ys) = runFrom (runFrom st xs) ys := by
  simp [runFrom, List.foldl_append]

theorem acceptedClocks_append (xs ys : List Action) :
    acceptedClocks (xs ++ ys) = acceptedClocks xs ++ acceptedClocks ys := by
  induction xs with
  | nil => rfl
  | cons a xs ih =>
    cases a with
    | add draft now iso =>
      simp only [List.cons_append, acceptedClocks]
      split <;> simp [ih]
    | delete id => simpa [acceptedClocks] using ih

theorem step_required_fields (st : State) (a : Action)
    (h : ∀ e ∈ st.researchEntries, e.title ≠ "" ∧ e.url ≠ "") :
    ∀ e ∈ (step st a).researchEntries, e.title ≠ "" ∧ e.url ≠ "" := by
  cases a with
  | add draft now iso =>
    intro e he
    simp only [step, addEntry] at he
    split at he
    · rename_i hg
      simp only [Bool.and_eq_true, truthy_iff] at hg
      simp only [List.mem_append, List.mem_singleton] at he
      rcases he with he | he
      · exact h e he
      · subst he; exact hg
    · exact h e he
  | delete id =>
    intro e he
    simp only [step, deleteEntry, List.mem_filter] at he
    exact h e he.1

theorem runFrom_required_fields (acts : List Action) (st : State)
    (h : ∀ e ∈ st.researchEntries, e.title ≠ "" ∧ e.url ≠ "") :
    ∀ e ∈ (runFrom st acts).researchEntries, e.title ≠ "" ∧ e.url ≠ "" := by
  induction acts generalizing st with
  | nil => exact h
  | cons a acts ih =>
    rw [runFrom_cons]
    exact ih (step st a) (step_required_fields st a h)

/-- C7: every entry of every store reached from the empty store by `addEntry` calls
(with any draft and any clock) and `deleteEntry` calls (with any id) has a non-empty
title and a non-empty url. -/
theorem reachable_required_fields (acts : List Action) :
    ∀ e ∈ (run acts).researchEntries, e.title ≠ "" ∧ e.url ≠ "" := by
  apply runFrom_required_fields
  intro e he
  simp [initialState] at he

/-- Witness of C7: a history with an accepted, a rejected and a deleting call. -/
theorem reachable_required_fields_witness :
    entryWithDate 7 "2024-05-06T10:00:00.000Z" sampleDraft ∈
      (run [.add sampleDraft 7 "2024-05-06T10:00:00.000Z", .add emptyDraft 8 "",
            .delete "9"]).researchEntries ∧
    (entryWithDate 7 "2024-05-06T10:00:00.000Z" sampleDraft).title ≠ "" ∧
    (entryWithDate 7 "2024-05-06T10:00:00.000Z" sampleDraft).url ≠ "" :=
  ⟨by decide,
   reachable_required_fields
     [.add sampleDraft 7 "2024-05-06T10:00:00.000Z", .add emptyDraft 8 "", .delete "9"]
     _ (by decide)⟩

theorem digitChar_toNat (d : Nat) (h : d < 10) : (Nat.digitChar d).toNat - 48 = d := by
  interval_cases d <;> rfl

theorem toDigitsCore_append (fuel n : Nat) (ds : List Char) :
    Nat.toDigitsCore 10 fuel n ds = Nat.toDigitsCore 10 fuel n [] ++ ds := by
  induction fuel generalizing n ds with
  | zero => simp [Nat.toDigitsCore]
  | succ fuel ih =>
    simp only [Nat.toDigitsCore]
    split
    · simp
    · rw [ih (n / 10) (_ :: ds), ih (n / 10) [_]]; simp

theorem digitsValue_toDigitsCore (fuel n : Nat) (h : n < fuel) :
    digitsValue (Nat.toDigitsCore 10 fuel n []) = n := by
  induction fuel generalizing n with
  | zero => omega
  | succ fuel ih =>
    simp only [Nat.toDigitsCore]
    split
    · rename_i h0
      have : n < 10 := by omega
      simp [digitsValue, Nat.mod_eq_of_lt this, digitChar_toNat n this]
    · rename_i h0
      rw [toDigitsCore_append]
      have hlt : n / 10 < fuel := by omega
      have := ih (n / 10) hlt
      simp only [digitsValue, List.foldl_append, List.foldl_cons, List.foldl_nil] at this ⊢
      rw [this, digitChar_toNat _ (Nat.mod_lt _ (by decide))]
      omega

theorem numberToString_injective : Function.Injective numberToString := by
  intro a b h
  have h' : Nat.toDigits 10 a = Nat.toDigits 10 b := by
    have := congrArg String.data h
    simpa [numberToString, List.asString] using this
  have ha := digitsValue_toDigitsCore (a + 1) a (by omega)
  have hb := digitsValue_toDigitsCore (b + 1) b (by omega)
  simp only [Nat.toDigits] at h'
  rw [← ha, ← hb, h']

theorem ids_step_add_accepted (st : State) (draft : Draft) (now : Nat) (iso : String)
    (h : (truthy draft.title && truthy draft.url) = true) :
    ids (step st (.add draft now iso)) = ids st ++ [numberToString now] := by
  simp [step, addEntry, h, ids, entryWithDate]

theorem ids_step_add_rejected (st : State) (draft : Draft) (now : Nat) (iso : String)
    (h : ¬ (truthy draft.title && truthy draft.url) = true) :
    ids (step st (.add draft now iso)) = ids st := by
  simp [step, addEntry, h, ids]

theorem ids_step_delete (st : State) (id : String) :
    (ids (step st (.delete id))).Sublist (ids st) := by
  simp only [step, deleteEntry, ids]
  exact (List.filter_sublist _).map _

theorem runFrom_ids_nodup (acts : List Action) (st : State)
    (h : (ids st ++ (acceptedClocks acts).map numberToString).Nodup) :
    (ids (runFrom st acts)).Nodup := by
  induction acts generalizing st with
  | nil => simpa [runFrom, acceptedClocks] using h
  | cons a acts ih =>
    rw [runFrom_cons]
    apply ih
    cases a with
    | add draft now iso =>
      by_cases hg : (truthy draft.title && truthy draft.url) = true
      · rw [ids_step_add_accepted st draft now iso hg]
        simpa [acceptedClocks, hg] using h
      · rw [ids_step_add_rejected st draft now iso hg]
        simpa [acceptedClocks, hg] using h
    | delete id =>
      simp only [acceptedClocks] at h
      exact h.sublist ((ids_step_delete st id).append (List.Sublist.refl _))

theorem run_ids_nodup (acts : List Action) (h : (acceptedClocks acts).Nodup) :
    (ids (run acts)).Nodup := by
  apply runFrom_ids_nodup
  simpa [ids, initialState] using h.map numberToString_injective

/-- C5 as stated fails: two accepted `addEntry` calls that read the same clock value
leave two entries with the same id in the store. -/
theorem ids_not_unique_counterexample :
    ¬ (ids (run [.add sampleDraft 1700000000000 "2023-11-14T22:13:20.000Z",
                 .add sampleDraft 1700000000000 "2023-11-14T22:13:20.000Z"])).Nodup := by
  decide

/-- C5 amended: when the clock values read by the accepted `addEntry` calls of a history
are pairwise distinct, no two entries of the reached store share an id, and the id given
by each accepted `addEntry` call differs from the id of every entry then in the store. -/
theorem ids_unique_of_distinct_clocks (acts : List Action)
    (h : (acceptedClocks acts).Nodup) :
    (ids (run acts)).Nodup ∧
    ∀ (before after : List Action) (draft : Draft) (now : Nat) (iso : String),
      acts = before ++ .add draft now iso :: after →
      draft.title ≠ "" → draft.url ≠ "" →
      ∀ e ∈ (run before).researchEntries, e.id ≠ (entryWithDate now iso draft).id := by
  refine ⟨run_ids_nodup acts h, ?_⟩
  intro before after draft now iso hacts hTitle hUrl e he
  have hg : (truthy draft.title && truthy draft.url) = true := by
    simp [truthy, hTitle, hUrl]
  have hpre : (acceptedClocks (before ++ [.add draft now iso])).Nodup := by
    have : acts = (before ++ [Action.add draft now iso]) ++ after := by simp [hacts]
    rw [this, acceptedClocks_append] at h
    exact (List.nodup_append.1 h).1
  have hnd := run_ids_nodup _ hpre
  rw [run, runFrom_append] at hnd
  change (ids (step (run before) (.add draft now iso))).Nodup at hnd
  rw [ids_step_add_accepted _ draft now iso hg] at hnd
  have hnot : numberToString now ∉ ids (run before) := by
    intro hmem
    have := (List.nodup_append.1 hnd).2.2
    exact this hmem (List.mem_singleton_self _)
  intro heq
  apply hnot
  simp only [ids, List.mem_map]
  exact ⟨e, he, by simpa [entryWithDate] using heq⟩

/-- Witness of the amended C5: two accepted calls one millisecond apart. -/
theorem ids_unique_of_distinct_clocks_witness :
    (acceptedClocks
      [.add sampleDraft 1700000000000 "", .add sampleDraft 1700000000001 ""]).Nodup ∧
    (ids (run [.add sampleDraft 1700000000000 "", .add sampleDraft 1700000000001 ""])).Nodup :=
  ⟨by decide,
   (ids_unique_of_distinct_clocks
     [.add sampleDraft 1700000000000 "", .add sampleDraft 1700000000001 ""] (by decide)).1⟩

/-! ### Draft tags -/

theorem filterIndexNe_eq (i : Nat) (xs : List String) (start : Nat) (h : start ≤ i) :
    filterIndexNe i start xs = xs.take (i - start) ++ xs.drop (i - start + 1) := by
  induction xs generalizing start with
  | nil => simp [filterIndexNe]
  | cons x xs ih =>
    by_cases hs : start = i
    · subst hs
      have hlater : ∀ (ys : List String) (k : Nat), start < k →
          filterIndexNe start k ys = ys := by
        intro ys
        induction ys with
        | nil => intro k _; rfl
        | cons y ys ihy =>
          intro k hk
          have : k ≠ start := by omega
          simp [filterIndexNe, this, ihy (k + 1) (by omega)]
      simp [filterIndexNe, hlater xs (start + 1) (by omega)]
    · have hlt : start + 1 ≤ i := by omega
      have e1 : i - start = (i - (start + 1)) + 1 := by omega
      simp only [filterIndexNe, bne_iff_ne, ne_eq, hs, not_false_eq_true, if_true]
      rw [ih (start + 1) hlt, e1]
      simp

/-- C10: for a position `i` inside the draft's tag sequence, `removeTag i` leaves the
tags before `i` followed by the tags after it, one tag fewer, and changes no other
field of the draft nor the rest of the state; pressing Enter on the text "foo" in a
draft with no tags adds exactly one tag (the text the input box holds when the updater
runs), and removing position 0 then leaves no tags, as it does for the draft whose only
tag is "foo". -/
theorem removeTag_spec (i : Nat) (st : State) (h : i < st.newEntry.tags.length) :
    (removeTag i st).newEntry.tags = st.newEntry.tags.take i ++ st.newEntry.tags.drop (i + 1) ∧
    (removeTag i st).newEntry.tags.length = st.newEntry.tags.length - 1 ∧
    removeTag i st = { st with newEntry := { st.newEntry with
      tags := st.newEntry.tags.take i ++ st.newEntry.tags.drop (i + 1) } } ∧
    (∀ (st0 : State) (updaterRunsAtCall : Bool), st0.newEntry.tags = [] →
      (handleTagInput "Enter" "foo" updaterRunsAtCall st0).newEntry.tags =
        [if updaterRunsAtCall then "foo" else ""] ∧
      (removeTag 0 (handleTagInput "Enter" "foo" updaterRunsAtCall st0)).newEntry.tags = []) ∧
    (∀ st0 : State, st0.newEntry.tags = ["foo"] → (removeTag 0 st0).newEntry.tags = []) := by
  have hEq := filterIndexNe_eq i st.newEntry.tags 0 (Nat.zero_le _)
  simp only [Nat.sub_zero] at hEq
  refine ⟨?_, ?_, ?_, ?_, ?_⟩
  · simp [removeTag, hEq]
  · simp only [removeTag, hEq, List.length_append, List.length_take, List.length_drop]
    omega
  · simp [removeTag, hEq]
  · intro st0 updaterRunsAtCall h0
    cases updaterRunsAtCall <;>
      simp [removeTag, handleTagInput, tagUpdater, truthy, h0, filterIndexNe]
  · intro st0 h0
    simp [removeTag, h0, filterIndexNe]

/-- Witness of C10: removing the first of the two tags of `sampleState`'s draft, and
pressing Enter on "foo" in the first render's draft, whichever way the updater runs. -/
theorem removeTag_spec_witness :
    0 < sampleState.newEntry.tags.length ∧
    (removeTag 0 sampleState).newEntry.tags = ["t2"] ∧
    initialState.newEntry.tags = [] ∧
    (handleTagInput "Enter" "foo" false initialState).newEntry.tags = [""] ∧
    (removeTag 0 (handleTagInput "Enter" "foo" false initialState)).newEntry.tags = [] ∧
    (handleTagInput "Enter" "foo" true initialState).newEntry.tags = ["foo"] ∧
    (removeTag 0 (handleTagInput "Enter" "foo" true initialState)).newEntry.tags = [] :=
  ⟨by decide, (removeTag_spec 0 sampleState (by decide)).1, rfl,
   ((removeTag_spec 0 sampleState (by decide)).2.2.2.1 initialState false rfl).1,
   ((removeTag_spec 0 sampleState (by decide)).2.2.2.1 initialState false rfl).2,
   ((removeTag_spec 0 sampleState (by decide)).2.2.2.1 initialState true rfl).1,
   ((removeTag_spec 0 sampleState (by decide)).2.2.2.1 initialState true rfl).2⟩

/-! ### The text export -/

theorem docLoop_eq (toUpperCase : String → String) (entries : List Entry) (index : Nat)
    (docContent : String) :
    docLoop toUpperCase index entries docContent =
      docContent ++ docxBlocks toUpperCase (index + 1) entries := by
  induction entries generalizing index docContent with
  | nil => simp [docLoop, docxBlocks]
  | cons entry rest ih =>
    simp only [docLoop, docxBlocks, docxBlock, ih]
    have h2 : ("\n\n" : String) = "\n" ++ "\n" := by decide
    rw [h2]
    simp only [String.append_assoc]

/-- C9: the text built by `exportToDocx` is the heading, a blank line, and one block
per entry in store order, the `k`-th block (from 1) being the line `k. TITLE`, the lines
`URL: `, `Date: `, `Catégorie: `, `Niveau de preuve: `, `Description: `, `Notes: ` with
the field's value, the line `Tags: ` with the tags joined by `, `, and a blank line; the
state is returned unchanged. -/
theorem exportToDocx_spec (toUpperCase : String → String) (st : State) :
    (exportToDocx toUpperCase st).2.content = docxReport toUpperCase st.researchEntries ∧
    (exportToDocx toUpperCase st).1 = st := by
  refine ⟨?_, rfl⟩
  simp only [exportToDocx, docxReport, docLoop_eq]
  have h : ("JOURNAL DE RECHERCHE BIOMÉDICALE\n\n" : String) =
      "JOURNAL DE RECHERCHE BIOMÉDICALE" ++ "\n" ++ "\n" := by decide
  rw [h]

/-! ### Loading -/

/-- C8 as stated fails: on a slot whose text `JSON.parse` rejects, the load step ends
with the exception instead of completing with an empty collection. -/
theorem loadEffect_malformed_counterexample :
    loadEffect sampleJsonParse (some "not json") (.collection []) = .error "SyntaxError" ∧
    loadEffect sampleJsonParse (some "not json") (.collection []) ≠ .ok (.collection []) := by
  have h : loadEffect sampleJsonParse (some "not json") (.collection []) =
      .error "SyntaxError" := rfl
  exact ⟨h, by rw [h]; exact fun h' => Except.noConfusion h'⟩

/-- C8 amended: when the slot is absent or holds the empty text the load step completes
and leaves the collection as it was (empty at initialisation); when the slot holds a
text that `JSON.parse` accepts, the state cell becomes the parsed value, so a well-formed
collection becomes the in-memory collection; when the slot holds a non-empty text that
`JSON.parse` rejects, the load step raises that exception. -/
theorem loadEffect_spec (jsonParse : String → Except String Parsed) (current : Parsed) :
    loadEffect jsonParse none current = .ok current ∧
    loadEffect jsonParse (some "") current = .ok current ∧
    (∀ (text : String) (value : Parsed), text ≠ "" → jsonParse text = .ok value →
      loadEffect jsonParse (some text) current = .ok value) ∧
    (∀ (text : String) (entries : List Entry), text ≠ "" →
      jsonParse text = .ok (.collection entries) →
      loadEffect jsonParse (some text) current = .ok (.collection entries)) ∧
    (∀ (text exception : String), text ≠ "" → jsonParse text = .error exception →
      loadEffect jsonParse (some text) current = .error exception) := by
  refine ⟨rfl, ?_, ?_, ?_, ?_⟩
  · simp [loadEffect, truthy]
  · intro text value hne hp
    simp [loadEffect, truthy, hne, hp]
  · intro text entries hne hp
    simp [loadEffect, truthy, hne, hp]
  · intro text exception hne hp
    simp [loadEffect, truthy, hne, hp]

/-- Witness of the amended C8 at initialisation: a slot holding `[]` and a slot holding
a text that is not JSON. -/
theorem loadEffect_spec_witness :
    ("[]" ≠ "" ∧ sampleJsonParse "[]" = .ok (.collection []) ∧
      loadEffect sampleJsonParse (some "[]") (.collection []) = .ok (.collection [])) ∧
    ("not json" ≠ "" ∧ sampleJsonParse "not json" = .error "SyntaxError" ∧
      loadEffect sampleJsonParse (some "not json") (.collection []) = .error "SyntaxError") :=
  ⟨⟨by decide, rfl,
    (loadEffect_spec sampleJsonParse (.collection [])).2.2.2.1 "[]" [] (by decide) rfl⟩,
   ⟨by decide, rfl,
    (loadEffect_spec sampleJsonParse (.collection [])).2.2.2.2 "not json" "SyntaxError"
      (by decide) rfl⟩⟩

/-! ### The CSV export -/

theorem asString_data (s : String) : s.data.asString = s := rfl

theorem foldl_readChar_escaped (cs : List Char) (s : Reader) (h : s.mode = .quoted) :
    (escapeQuotes cs).foldl readChar s = { s with field := s.field ++ cs } := by
  induction cs generalizing s with
  | nil => simp [escapeQuotes]
  | cons c cs ih =>
    by_cases hc : c = '"'
    · subst hc
      simp only [escapeQuotes, if_true, List.foldl_cons]
      have h1 : readChar (readChar s '"') '"' = { s with field := s.field ++ ['"'] } := by
        cases s; simp_all [readChar, pushChar]
      rw [h1, ih _ (by exact h)]
      simp
    · simp only [escapeQuotes, hc, if_false, List.foldl_cons]
      have h1 : readChar s c = { s with field := s.field ++ [c] } := by
        cases s; simp_all [readChar, pushChar]
      rw [h1, ih _ (by exact h)]
      simp

/-- The characters that may stand in an unquoted cell. -/
theorem foldl_readChar_plain (cs : List Char) (s : Reader)
    (hcs : ∀ c ∈ cs, c ≠ ',' ∧ c ≠ '\r' ∧ c ≠ '\n' ∧ c ≠ '"')
    (hm : s.mode = .recordStart ∨ s.mode = .fieldStart ∨ s.mode = .unquoted) :
    cs.foldl readChar s =
      { s with field := s.field ++ cs, mode := if cs = [] then s.mode else .unquoted } := by
  induction cs generalizing s with
  | nil => simp
  | cons c cs ih =>
    obtain ⟨h1, h2, h3, h4⟩ := hcs c (List.mem_cons_self _ _)
    have hstep : readChar s c = { s with field := s.field ++ [c], mode := .unquoted } := by
      cases s
      rcases hm with hm | hm | hm <;> simp_all [readChar, readPlain, pushChar]
    rw [List.foldl_cons, hstep,
      ih _ (fun c hc => hcs c (List.mem_cons_of_mem _ hc)) (Or.inr (Or.inr rfl))]
    simp

theorem mem_escapeQuotes (c : Char) (cs : List Char) : c ∈ escapeQuotes cs ↔ c ∈ cs := by
  induction cs with
  | nil => simp [escapeQuotes]
  | cons d cs ih =>
    by_cases hd : d = '"'
    · subst hd
      simp only [escapeQuotes, if_true, List.mem_cons, ih]
      tauto
    · simp only [escapeQuotes, hd, if_false, List.mem_cons, ih]

theorem escapeQuotes_eq_self (cs : List Char) (h : '"' ∉ cs) : escapeQuotes cs = cs := by
  induction cs with
  | nil => rfl
  | cons d cs ih =>
    have hd : d ≠ '"' := fun e => h (e ▸ List.mem_cons_self _ _)
    have hcs : '"' ∉ cs := fun e => h (List.mem_cons_of_mem _ e)
    simp [escapeQuotes, hd, ih hcs]

theorem plain_of_not_needsQuotes (escaped : List Char) (h : needsQuotes escaped = false) :
    ∀ c ∈ escaped, c ≠ ',' ∧ c ≠ '\r' ∧ c ≠ '\n' ∧ c ≠ '"' := by
  intro c hc
  simp only [needsQuotes, Bool.or_eq_false_iff, List.any_eq_false, beq_iff_eq,
    Bool.or_eq_true, not_or] at h
  obtain ⟨⟨⟨h1, h2⟩, _⟩, _⟩ := h
  exact ⟨h2 c hc, (h1 c hc).1.1.1, (h1 c hc).1.1.2, (h1 c hc).1.2⟩

theorem foldl_readChar_safe (cell : String) (s : Reader) (hf : s.field = [])
    (hm : s.mode = .recordStart ∨ s.mode = .fieldStart) :
    ∃ m, (m = .quoteSeen ∨ m = .unquoted ∨ m = s.mode) ∧
      (safe cell).foldl readChar s = { s with field := cell.data, mode := m } := by
  by_cases hq : needsQuotes (escapeQuotes cell.data) = true
  · refine ⟨.quoteSeen, Or.inl rfl, ?_⟩
    have hopen : readChar s '"' = { s with mode := .quoted } := by
      cases s; rcases hm with hm | hm <;> simp_all [readChar]
    simp only [safe, hq, if_true, List.foldl_cons, List.foldl_append, List.foldl_nil, hopen]
    rw [foldl_readChar_escaped _ _ rfl]
    simp [readChar, hf]
  · have hq' : needsQuotes (escapeQuotes cell.data) = false := by simpa using hq
    have hplain := plain_of_not_needsQuotes _ hq'
    have hnq : '"' ∉ cell.data := fun hmem =>
      (hplain '"' ((mem_escapeQuotes _ _).2 hmem)).2.2.2 rfl
    have hself := escapeQuotes_eq_self _ hnq
    rw [hself] at hplain
    refine ⟨if cell.data = [] then s.mode else .unquoted, ?_, ?_⟩
    · split
      · exact Or.inr (Or.inr rfl)
      · exact Or.inr (Or.inl rfl)
    · rw [hself] at hq'
      simp only [safe, hself, hq', Bool.false_eq_true, if_false]
      rw [foldl_readChar_plain _ _ hplain (by tauto)]
      simp [hf]

theorem readChar_comma (s : Reader)
    (hm : s.mode = .quoteSeen ∨ s.mode = .unquoted ∨ s.mode = .fieldStart ∨
      s.mode = .recordStart) :
    readChar s ',' = endField s := by
  cases s
  rcases hm with hm | hm | hm | hm <;> simp_all [readChar, readPlain]

theorem readChar_crlf (s : Reader)
    (hm : s.mode = .quoteSeen ∨ s.mode = .unquoted ∨ s.mode = .fieldStart) :
    readChar (readChar s '\r') '\n' = endRecord s .recordStart := by
  cases s
  rcases hm with hm | hm | hm <;> simp_all [readChar, readPlain, endRecord]

theorem finish_closed (s : Reader)
    (hm : s.mode = .quoteSeen ∨ s.mode = .unquoted ∨ s.mode = .fieldStart) :
    finish s = s.rows ++ [s.row ++ [s.field.asString]] := by
  cases s
  rcases hm with hm | hm | hm <;> simp_all [finish]

theorem foldl_readChar_cells (cells : List String) (hne : cells ≠ []) (s : Reader)
    (hf : s.field = []) (hm : s.mode = .fieldStart) :
    ((serializeRow cells).foldl readChar s).rows = s.rows ∧
    ((serializeRow cells).foldl readChar s).row ++
        [((serializeRow cells).foldl readChar s).field.asString] = s.row ++ cells ∧
    (((serializeRow cells).foldl readChar s).mode = .quoteSeen ∨
     ((serializeRow cells).foldl readChar s).mode = .unquoted ∨
     ((serializeRow cells).foldl readChar s).mode = .fieldStart) := by
  induction cells generalizing s with
  | nil => exact absurd rfl hne
  | cons cell rest ih =>
    obtain ⟨m, hmode, hsafe⟩ := foldl_readChar_safe cell s hf (Or.inr hm)
    cases rest with
    | nil =>
      rw [hm] at hmode
      simp only [serializeRow, hsafe]
      exact ⟨trivial, by simp [asString_data], hmode⟩
    | cons next rest =>
      simp only [serializeRow, List.foldl_append, List.foldl_cons, hsafe]
      rw [readChar_comma _ (by
        rcases hmode with h | h | h
        · exact Or.inl h
        · exact Or.inr (Or.inl h)
        · exact Or.inr (Or.inr (Or.inl (h.trans hm))))]
      have := ih (List.cons_ne_nil _ _)
        (endField { s with field := cell.data, mode := m }) rfl rfl
      simpa [endField, asString_data] using this

theorem foldl_readChar_record (cell next : String) (rest : List String) (s : Reader)
    (hf : s.field = []) (hr : s.row = []) (hm : s.mode = .recordStart) :
    ((serializeRow (cell :: next :: rest)).foldl readChar s).rows = s.rows ∧
    ((serializeRow (cell :: next :: rest)).foldl readChar s).row ++
        [((serializeRow (cell :: next :: rest)).foldl readChar s).field.asString] =
      cell :: next :: rest ∧
    (((serializeRow (cell :: next :: rest)).foldl readChar s).mode = .quoteSeen ∨
     ((serializeRow (cell :: next :: rest)).foldl readChar s).mode = .unquoted ∨
     ((serializeRow (cell :: next :: rest)).foldl readChar s).mode = .fieldStart) := by
  obtain ⟨m, hmode, hsafe⟩ := foldl_readChar_safe cell s hf (Or.inl hm)
  simp only [serializeRow, List.foldl_append, List.foldl_cons, hsafe]
  rw [readChar_comma _ (by
    rcases hmode with h | h | h
    · exact Or.inl h
    · exact Or.inr (Or.inl h)
    · exact Or.inr (Or.inr (Or.inr (h.trans hm))))]
  have := foldl_readChar_cells (next :: rest) (List.cons_ne_nil _ _)
    (endField { s with field := cell.data, mode := m }) rfl rfl
  simpa [endField, asString_data, hr, serializeRow] using this

theorem finish_foldl_rows (table : List (List String)) (hne : table ≠ [])
    (hwide : ∀ r ∈ table, 2 ≤ r.length) (s : Reader)
    (hf : s.field = []) (hr : s.row = []) (hm : s.mode = .recordStart) :
    finish ((serializeRows table).foldl readChar s) = s.rows ++ table := by
  induction table generalizing s with
  | nil => exact absurd rfl hne
  | cons r table ih =>
    have hr2 := hwide r (List.mem_cons_self _ _)
    obtain ⟨cell, next, rest, rfl⟩ : ∃ cell next rest, r = cell :: next :: rest := by
      match r, hr2 with
      | cell :: next :: rest, _ => exact ⟨cell, next, rest, rfl⟩
    obtain ⟨h1, h2, h3⟩ := foldl_readChar_record cell next rest s hf hr hm
    cases table with
    | nil =>
      simp only [serializeRows]
      rw [finish_closed _ h3, h1, h2]
    | cons r2 table =>
      simp only [serializeRows, List.foldl_append, List.foldl_cons]
      rw [readChar_crlf _ h3]
      have := ih (List.cons_ne_nil _ _)
        (fun r hmem => hwide r (List.mem_cons_of_mem _ hmem))
        (endRecord ((serializeRow (cell :: next :: rest)).foldl readChar s) .recordStart)
        rfl rfl rfl
      rw [this]
      simp [endRecord, h1, h2]

theorem parseCsv_unparse (entries : List Entry) :
    (parseCsv (unparse entries)).drop 1 = entries.map csvRecord := by
  cases entries with
  | nil => rfl
  | cons e es =>
    have h := finish_foldl_rows (csvHeader :: (e :: es).map csvRecord) (List.cons_ne_nil _ _)
      (by
        intro r hmem
        rcases List.mem_cons.1 hmem with h | h
        · subst h; decide
        · obtain ⟨x, _, rfl⟩ := List.mem_map.1 h
          simp [csvRecord])
      { rows := [], row := [], field := [], mode := .recordStart } rfl rfl rfl
    simp only [parseCsv, unparse]
    rw [show (serializeRows (csvHeader :: (e :: es).map csvRecord)).asString.data =
      serializeRows (csvHeader :: (e :: es).map csvRecord) from rfl, h]
    rfl

theorem splitCommaAux_append (t cur tail : List Char) (h : ',' ∉ t) :
    splitCommaAux cur (t ++ tail) = splitCommaAux (cur ++ t) tail := by
  induction t generalizing cur with
  | nil => simp
  | cons c t ih =>
    have hc : c ≠ ',' := fun e => h (e ▸ List.mem_cons_self _ _)
    have ht : ',' ∉ t := fun e => h (List.mem_cons_of_mem _ e)
    rw [List.cons_append]
    simp only [splitCommaAux, hc, if_false]
    rw [ih _ ht]
    simp

theorem join_comma_data (x y : String) (rest : List String) :
    (join "," (x :: y :: rest)).data = x.data ++ ',' :: (join "," (y :: rest)).data := by
  simp [join, String.data_append]

theorem splitCommaAux_join (tags : List String) (hne : tags ≠ [])
    (h : ∀ t ∈ tags, ',' ∉ t.data) :
    splitCommaAux [] (join "," tags).data = tags := by
  induction tags with
  | nil => exact absurd rfl hne
  | cons x tags ih =>
    have hx := h x (List.mem_cons_self _ _)
    cases tags with
    | nil =>
      have := splitCommaAux_append x.data [] [] hx
      simp only [List.append_nil, List.nil_append] at this
      simp [join, this, splitCommaAux, asString_data]
    | cons y rest =>
      rw [join_comma_data, splitCommaAux_append _ _ _ hx]
      simp only [List.nil_append, splitCommaAux, if_true, asString_data]
      rw [ih (List.cons_ne_nil _ _) (fun t ht => h t (List.mem_cons_of_mem _ ht))]

theorem splitCommaAux_comma_free (cs cur : List Char) (hcur : ',' ∉ cur) :
    ∀ t ∈ splitCommaAux cur cs, ',' ∉ t.data := by
  induction cs generalizing cur with
  | nil =>
    intro t ht
    simp only [splitCommaAux, List.mem_singleton] at ht
    subst ht
    exact hcur
  | cons c cs ih =>
    intro t ht
    by_cases hc : c = ','
    · simp only [splitCommaAux, hc, if_true, List.mem_cons] at ht
      rcases ht with ht | ht
      · subst ht; exact hcur
      · exact ih [] (by simp) t ht
    · simp only [splitCommaAux, hc, if_false] at ht
      refine ih (cur ++ [c]) ?_ t ht
      simp only [List.mem_append, List.mem_singleton, not_or]
      exact ⟨hcur, fun e => hc e.symm⟩

theorem join_comma_ne_empty (x : String) (rest : List String) (h : x :: rest ≠ [""]) :
    join "," (x :: rest) ≠ "" := by
  intro e
  cases rest with
  | nil => exact h (by simpa [join] using e)
  | cons y rest =>
    have hd := congrArg String.data e
    rw [join_comma_data] at hd
    simp at hd

theorem recoverTags_join_iff (tags : List String) :
    recoverTags (join "," tags) = tags ↔
      ((∀ t ∈ tags, ',' ∉ t.data) ∧ tags ≠ [""]) := by
  constructor
  · intro h
    refine ⟨?_, ?_⟩
    · intro t ht
      rw [← h] at ht
      simp only [recoverTags] at ht
      split at ht
      · simp at ht
      · exact splitCommaAux_comma_free _ [] (by simp) t ht
    · intro e
      rw [e] at h
      revert h
      decide
  · rintro ⟨hfree, hne⟩
    cases tags with
    | nil => rfl
    | cons x rest =>
      simp only [recoverTags, join_comma_ne_empty x rest hne, if_false]
      exact splitCommaAux_join _ (List.cons_ne_nil _ _) hfree

/-- C6 as stated fails: no decoder recovers the tag sequence of every entry from the
tags cell, because the entry with the one tag `a,b` and the entry with the two tags `a`
and `b` are exported with the same text, and so are the entry whose only tag is the
empty text and the entry with no tag. -/
theorem csv_tags_not_recoverable_counterexample :
    (exportToCSV { initialState with researchEntries := [commaTagEntry] }).2.content =
      (exportToCSV { initialState with researchEntries := [twoTagEntry] }).2.content ∧
    commaTagEntry.tags ≠ twoTagEntry.tags ∧
    (exportToCSV { initialState with researchEntries := [emptyTagEntry] }).2.content =
      (exportToCSV { initialState with researchEntries := [noTagEntry] }).2.content ∧
    emptyTagEntry.tags ≠ noTagEntry.tags ∧
    ¬ ∃ recover : String → List String, ∀ st : State,
      ((parseCsv (exportToCSV st).2.content).drop 1).map
          (fun record => recover (tagsCell record)) =
        st.researchEntries.map (fun entry => entry.tags) := by
  refine ⟨by decide, by decide, by decide, by decide, ?_⟩
  rintro ⟨recover, h⟩
  have h1 := h { initialState with researchEntries := [commaTagEntry] }
  have h2 := h { initialState with researchEntries := [twoTagEntry] }
  simp only [exportToCSV, parseCsv_unparse, List.map_cons, List.map_nil] at h1 h2
  have e1 : tagsCell (csvRecord commaTagEntry) = "a,b" := by decide
  have e2 : tagsCell (csvRecord twoTagEntry) = "a,b" := by decide
  rw [e1] at h1
  rw [e2] at h2
  have := h1.symm.trans h2
  revert this
  decide

/-- C6 amended: re-parsing the text produced by `exportToCSV` with a standard CSV reader
yields, after the header row, one record per entry in store order whose cells are the
entry's title, url, date, description, evidenceLevel, category, notes, the tags joined by
a comma, and the id; the tag sequence is recovered from the tags cell (no tag for the
empty cell, else the pieces between commas) exactly for the entries none of whose tags
holds a comma and whose tag sequence is not the single empty tag; the state is returned
unchanged. -/
theorem exportToCSV_roundtrip (st : State) :
    (parseCsv (exportToCSV st).2.content).drop 1 = st.researchEntries.map csvRecord ∧
    (∀ entry ∈ st.researchEntries,
      (recoverTags (tagsCell (csvRecord entry)) = entry.tags ↔
        ((∀ t ∈ entry.tags, ',' ∉ t.data) ∧ entry.tags ≠ [""]))) ∧
    (exportToCSV st).1 = st := by
  refine ⟨parseCsv_unparse _, ?_, rfl⟩
  intro entry _
  exact recoverTags_join_iff _

/-- Witness of the amended C6: the entry with title "A", url "http://x" and the tags
"t1" and "t2" comes back as a record with title "A" from which both tags are recovered. -/
theorem exportToCSV_roundtrip_witness :
    csvEntry ∈ csvState.researchEntries ∧
    ((∀ t ∈ csvEntry.tags, ',' ∉ t.data) ∧ csvEntry.tags ≠ [""]) ∧
    ((parseCsv (exportToCSV csvState).2.content).drop 1).head? = some (csvRecord csvEntry) ∧
    (csvRecord csvEntry).head? = some "A" ∧
    recoverTags (tagsCell (csvRecord csvEntry)) = ["t1", "t2"] :=
  ⟨by decide, by decide,
   by rw [(exportToCSV_roundtrip csvState).1]; rfl,
   rfl,
   ((exportToCSV_roundtrip csvState).2.1 csvEntry (by decide)).2 (by decide)⟩

end ResearchTracker
